import Mathlib

/-!
Verification of the structured-prediction core of the Causeway repository:
the semiring-generalized Viterbi decoder (`src/pipeline/models/structured.py`),
the featurized-model training/testing machinery and conjoined feature
extractors (`src/pipeline/models.py`), and the class-balancing resampler
(`ClassBalancingModelWrapper.rebalance`).

Numpy arrays are embedded as functions out of `Fin`/`ℕ` with explicit
dimensions; all scores are rationals.
-/

namespace Causeway

/-! ## Embedding of `src/pipeline/models/structured.py` -/

/-- First-occurrence argmax accumulator: `idx` is the index of the next list
element, `best` and `bestVal` the best index and value seen so far.  A later
element replaces the current best only when strictly greater, which is
`np.argmax`'s first-occurrence tie-break. -/
def npArgmaxAux (idx best : ℕ) (bestVal : ℚ) : List ℚ → ℕ
  | [] => best
  | x :: xs =>
      if bestVal < x then npArgmaxAux (idx + 1) idx x xs
      else npArgmaxAux (idx + 1) best bestVal xs

/-- `np.argmax` over a vector: index of the first occurrence of the maximum.
(On the empty list numpy raises; the value 0 here is junk, and every use in
the decoder is over a `num_states`-long column of a valid trellis.) -/
def npArgmax : List ℚ → ℕ
  | [] => 0
  | x :: xs => npArgmaxAux 1 0 x xs

/-- `np.max` over a vector (junk 0 on the empty list, where numpy raises). -/
def npMax : List ℚ → ℚ
  | [] => 0
  | x :: xs => xs.foldl max x

/-- `np.sum` over a vector. -/
def npSum (l : List ℚ) : ℚ := l.sum

/-- structured.py lines 139-146.  `arg_sum = none` models Python's `None`
default.  The additive identity of the MAX semirings is `-np.inf`, which `ℚ`
lacks, so the additive identity lives in `WithBot ℚ` with `⊥` standing for
`-inf`; `run_viterbi` never reads either identity. -/
structure Semiring where
  sum : List ℚ → ℚ
  multiply : ℚ → ℚ → ℚ
  additive_identity : WithBot ℚ
  multiplicative_identity : ℚ
  arg_sum : Option (List ℚ → ℕ)

/-- structured.py line 149:
`Semiring.PLUS_MULTIPLY = Semiring(np.sum, np.multiply, 0, 1)`. -/
def Semiring.PLUS_MULTIPLY : Semiring :=
  { sum := npSum, multiply := fun x y => x * y, additive_identity := (0 : ℚ),
    multiplicative_identity := 1, arg_sum := none }

/-- structured.py line 150:
`Semiring.MAX_MULTIPLY = Semiring(np.max, np.multiply, -np.inf, 1, np.argmax)`. -/
def Semiring.MAX_MULTIPLY : Semiring :=
  { sum := npMax, multiply := fun x y => x * y, additive_identity := ⊥,
    multiplicative_identity := 1, arg_sum := some npArgmax }

/-- structured.py line 151:
`Semiring.MAX_PLUS = Semiring(np.max, np.add, -np.inf, 0, np.argmax)`. -/
def Semiring.MAX_PLUS : Semiring :=
  { sum := npMax, multiply := fun x y => x + y, additive_identity := ⊥,
    multiplicative_identity := 0, arg_sum := some npArgmax }

/-- `transition_weights` (structured.py docstring lines 166-170): either a
stationary `num_states × num_states` matrix, or one `num_states × num_states`
matrix per transition (the `transition_weights.ndim > 2` case of line 186). -/
inductive TransitionWeights (S : ℕ) where
  | stationary (w : Fin S → Fin S → ℚ)
  | byItem (w : ℕ → Fin S → Fin S → ℚ)

/-- structured.py lines 191-195: the transition matrix used when computing
column `c + 1` (`transition_weights[column_index - 1]` in the per-item case,
the single matrix otherwise). -/
def TransitionWeights.forColumn {S : ℕ} (tw : TransitionWeights S) (c : ℕ) :
    Fin S → Fin S → ℚ :=
  match tw with
  | .stationary w => w
  | .byItem w => w c

/-- structured.py lines 199-201:
`predecessor_scores[i, j] = multiply(transition[i, j], path_scores[i, c])`,
given here as column `j` listed over the predecessor states `i` (the numpy
axis 0 along which the semiring sum/arg_sum is then taken). -/
def predecessor_scores_list {S : ℕ} (sr : Semiring) (twc : Fin S → Fin S → ℚ)
    (prev : Fin S → ℚ) (j : Fin S) : List ℚ :=
  (List.finRange S).map fun i => sr.multiply (twc i j) (prev i)

/-- structured.py lines 179-215 with `return_best_path=False`:
`path_scores[:, 0] = node_scores[:, 0]`, and
`path_scores[:, c+1] = multiply(node_scores[:, c+1], sum(predecessor_scores, axis=0))`. -/
def path_scores_sum {S : ℕ} (sr : Semiring) (node_scores : Fin S → ℕ → ℚ)
    (tw : TransitionWeights S) : ℕ → Fin S → ℚ
  | 0, j => node_scores j 0
  | c + 1, j =>
      sr.multiply (node_scores j (c + 1))
        (sr.sum (predecessor_scores_list sr (tw.forColumn c)
          (path_scores_sum sr node_scores tw c) j))

/-- structured.py lines 179-215 with `return_best_path=True`: the same
recursion, except that `summed_scores[j]` selects the entry of
`predecessor_scores[:, j]` at index `arg_sum(predecessor_scores[:, j])`
(lines 203-210).  `argf` is the semiring's `arg_sum` function. -/
def path_scores_best {S : ℕ} (sr : Semiring) (argf : List ℚ → ℕ)
    (node_scores : Fin S → ℕ → ℚ) (tw : TransitionWeights S) : ℕ → Fin S → ℚ
  | 0, j => node_scores j 0
  | c + 1, j =>
      let col := predecessor_scores_list sr (tw.forColumn c)
        (path_scores_best sr argf node_scores tw c) j
      sr.multiply (node_scores j (c + 1)) (col.getD (argf col) 0)

/-- structured.py lines 182-184 and 203-206.  Column 0 is `np.NaN` stored into
an `int32` array, whose resulting value numpy does not specify; it is modelled
by the explicit `sentinel` parameter.  Column `c + 1` holds
`arg_sum(predecessor_scores[:, j])`. -/
def predecessors {S : ℕ} (sr : Semiring) (argf : List ℚ → ℕ) (sentinel : ℕ)
    (node_scores : Fin S → ℕ → ℚ) (tw : TransitionWeights S) : ℕ → Fin S → ℕ
  | 0, _ => sentinel
  | c + 1, j =>
      argf (predecessor_scores_list sr (tw.forColumn c)
        (path_scores_best sr argf node_scores tw c) j)

/-- The row read `predecessors[s, c]`.  An out-of-range row `s` would be a
numpy IndexError; it is mapped to a junk value and is unreachable for the
in-range indices `np.argmax` produces on a valid trellis. -/
def predAt {S : ℕ} (pred : ℕ → Fin S → ℕ) (c : ℕ) (s : ℕ) : ℕ :=
  if h : s < S then pred c ⟨s, h⟩ else 0

/-- structured.py lines 221-224, the backward reconstruction loop, indexed by
the distance `k` from the last column: entry 0 is `best_final_index`
(column `P - 1`), and the entry for column `P - 1 - (k + 1)` is
`predecessors[path[P - 1 - k], P - 1 - k]`. -/
def entryFromEnd {S : ℕ} (pred : ℕ → Fin S → ℕ) (best_final : ℕ) (P : ℕ) :
    ℕ → ℕ
  | 0 => best_final
  | k + 1 => predAt pred (P - 1 - k) (entryFromEnd pred best_final P k)

/-- structured.py lines 226-228: `if self.possible_states:` is Python
truthiness, so an empty list behaves like `None`.  `self.possible_states[i]`
on an out-of-range index would raise and is modelled by `getD`/`default`. -/
def applyPossibleStates {α : Type} [Inhabited α]
    (possible_states : Option (List α)) (path : List ℕ) : List ℕ ⊕ List α :=
  match possible_states with
  | none => Sum.inl path
  | some l =>
      if l.isEmpty then Sum.inl path
      else Sum.inr (path.map fun i => l.getD i default)

/-- The two possible returns of `run_viterbi` (structured.py lines 230-233):
just a score, or a score together with the best state path (raw state indices
on the left, `possible_states`-mapped labels on the right). -/
inductive ViterbiResult (α : Type) where
  | scoreOnly (score : ℚ)
  | withPath (score : ℚ) (path : List ℕ ⊕ List α)
deriving DecidableEq

/-- structured.py lines 154-157. -/
structure ViterbiDecoder (α : Type) where
  possible_states : Option (List α)
  semiring : Semiring

/-- structured.py lines 217-230, the `return_best_path=True` ending:
`best_final_index = arg_sum(path_scores[:, -1])`,
`summed_score = path_scores[best_final_index, -1]`, then the backward
reconstruction and the optional `possible_states` mapping.  `sentinel` is the
unspecified int32 image of the NaN written into `predecessors[:, 0]`. -/
def run_viterbi_best {α : Type} [Inhabited α] (possible_states : Option (List α))
    (sr : Semiring) (argf : List ℚ → ℕ) (sentinel : ℕ) (S P : ℕ)
    (node_scores : Fin S → ℕ → ℚ) (tw : TransitionWeights S) : ViterbiResult α :=
  let pred := predecessors sr argf sentinel node_scores tw
  let last_col := (List.finRange S).map fun j =>
    path_scores_best sr argf node_scores tw (P - 1) j
  let best_final_index := argf last_col
  let summed_score := last_col.getD best_final_index 0
  let best_state_path := (List.range P).map fun c =>
    entryFromEnd pred best_final_index P (P - 1 - c)
  .withPath summed_score (applyPossibleStates possible_states best_state_path)

/-- structured.py lines 160-233, `ViterbiDecoder.run_viterbi`.  The trellis
has `S` states and `P` columns (`node_scores.shape`), passed explicitly since
the embedding replaces numpy arrays by functions.  The leading `assert` (lines
176-177) becomes the `.error` branch; numpy's NaN sentinel for
`predecessors[:, 0]` is instantiated with 0 (see `run_viterbi_best`; the
result is proved independent of it). -/
def ViterbiDecoder.run_viterbi {α : Type} [Inhabited α] (d : ViterbiDecoder α)
    (S P : ℕ) (node_scores : Fin S → ℕ → ℚ) (tw : TransitionWeights S)
    (return_best_path : Bool) : Except String (ViterbiResult α) :=
  match return_best_path, d.semiring.arg_sum with
  | true, none =>
      .error "Can only return best path for semirings with a defined arg_sum operation"
  | true, some argf =>
      .ok (run_viterbi_best d.possible_states d.semiring argf 0 S P node_scores tw)
  | false, _ =>
      .ok (.scoreOnly (d.semiring.sum ((List.finRange S).map fun j =>
        path_scores_sum d.semiring node_scores tw (P - 1) j)))

/-- Brute-force reference value: the sum over all `S ^ P` state paths of the
product of the path's per-position node scores and its per-transition
weights. -/
def totalPathScore (S P : ℕ) (node_scores : Fin S → ℕ → ℚ)
    (tw : TransitionWeights S) : ℚ :=
  ∑ p : Fin P → Fin S,
    (∏ t : Fin P, node_scores (p t) t.val) *
    ∏ t : Fin (P - 1),
      tw.forColumn t.val (p ⟨t.val, by have h := t.isLt; omega⟩)
        (p ⟨t.val + 1, by have h := t.isLt; omega⟩)

/-- Total weight of the length-`c + 1` path `Fin.snoc p j` (the path `p`
through columns `0..c-1` followed by state `j` at column `c`): product of its
node scores times the product of its transition weights. -/
def pathWeightEnd {S : ℕ} (node_scores : Fin S → ℕ → ℚ)
    (tw : TransitionWeights S) (c : ℕ) (p : Fin c → Fin S) (j : Fin S) : ℚ :=
  (∏ t : Fin (c + 1),
    node_scores ((Fin.snoc p j : Fin (c + 1) → Fin S) t) t.val) *
  ∏ t : Fin c,
    tw.forColumn t.val ((Fin.snoc p j : Fin (c + 1) → Fin S) t.castSucc)
      ((Fin.snoc p j : Fin (c + 1) → Fin S) t.succ)

/-! ## Embedding of `src/pipeline/models.py` (featurized models)

The classes `pipeline.feature_extractors.FeatureExtractor` and
`util.NameDictionary` are imported by models.py but their modules are not
under src/; they are modelled from the spec where indicated. -/

/-- Modelled from the spec: `FeatureExtractor.FeatureTypes` (the class is not
under src/); spec §6 declares "a declared feature type (categorical vs
numeric)". -/
inductive FeatureTypes where
  | Categorical
  | Numerical
deriving DecidableEq

/-- Modelled from the spec: `pipeline.feature_extractors.FeatureExtractor` is
not under src/.  Spec §6: an extractor exposes a stable `name`, a feature
type, a training step, `extract_subfeature_names(parts) -> sequence of
names`, and an extraction returning a mapping of subfeature name to numeric
value (`extract_all` below, one mapping per part).  `extract` is the
categorical value-name a single part produces, which
`ConjoinedFeatureExtractor.extract` (models.py lines 72-74) joins with `:`.
The extractor's own `train` pass is folded into these functions (its return
value, stored in `feature_training_data`, is unused by the claims). -/
structure FeatureExtractor (Part : Type) where
  name : String
  feature_type : FeatureTypes
  extract_subfeature_names : List Part → List String
  extract : Part → String
  extract_all : List Part → List (List (String × ℚ))

/-- `itertools.product` over a list of lists, in itertools order (first
factor outermost). -/
def itertoolsProduct {α : Type} : List (List α) → List (List α)
  | [] => [[]]
  | l :: ls => l.flatMap fun a => (itertoolsProduct ls).map fun t => a :: t

/-- models.py line 49: `ConjoinedFeatureExtractor.SEPARATOR = ':'`. -/
def SEPARATOR : String := ":"

/-- Splitting a character list on a separator character (every occurrence,
keeping empty segments), by structural recursion. -/
def splitCharsOn (sep : Char) : List Char → List (List Char)
  | [] => [[]]
  | c :: cs =>
      let rest := splitCharsOn sep cs
      if c = sep then [] :: rest
      else (c :: rest.headD []) :: rest.tail

/-- Python's `feature_name.split(':')` for the one-character separator
(core `String.splitOn` is defined by well-founded recursion, which the kernel
cannot evaluate, so the split is spelled out structurally). -/
def pySplit (sep : Char) (s : String) : List String :=
  (splitCharsOn sep s.toList).map List.asString

/-- models.py lines 44-74, `FeaturizedModel.ConjoinedFeatureExtractor`:
combining categorical extractors.  The constructor (lines 51-59) raises
`FeatureExtractionError` when any component is non-categorical;
`extract_subfeature_names` (lines 61-66) is the `itertools.product` of the
components' subfeature names joined with `:`; `extract` (lines 72-74) joins
the components' extractions.  `extract_all` is modelled from the spec (the
base class providing it is not under src/): a categorical extractor maps each
part to an indicator value 1 for its extracted subfeature name. -/
def ConjoinedFeatureExtractor {Part : Type} (name : String)
    (extractors : List (FeatureExtractor Part)) :
    Except String (FeatureExtractor Part) :=
  if extractors.all fun e => e.feature_type = FeatureTypes.Categorical then
    .ok
      { name := name
        feature_type := FeatureTypes.Categorical
        extract_subfeature_names := fun parts =>
          (itertoolsProduct (extractors.map fun e =>
            e.extract_subfeature_names parts)).map fun components =>
              String.intercalate SEPARATOR components
        extract := fun part =>
          String.intercalate SEPARATOR (extractors.map fun e => e.extract part)
        extract_all := fun parts => parts.map fun part =>
          [(String.intercalate SEPARATOR (extractors.map fun e => e.extract part), 1)] }
  else
    .error "Only categorical features can be conjoined"

/-- Modelled from the spec: `util.NameDictionary` is not under src/.  Spec §3:
"a bidirectional mapping from feature-name string to a dense integer index
... indices are contiguous, assigned in first-seen order".  The names are
stored in insertion order; a name's index is its position in the list. -/
structure NameDictionary where
  ids_to_names : List String
deriving DecidableEq

/-- Modelled from the spec: inserting a name assigns it the next index;
re-inserting a known name changes nothing (indices stay contiguous and in
first-seen order). -/
def NameDictionary.insert (d : NameDictionary) (name : String) : NameDictionary :=
  if name ∈ d.ids_to_names then d else ⟨d.ids_to_names ++ [name]⟩

/-- Modelled from the spec: name-to-index direction of the mapping.  A missing
name is a Python `KeyError`, modelled as `none`. -/
def NameDictionary.getId (d : NameDictionary) (name : String) : Option ℕ :=
  d.ids_to_names.findIdx? fun n => n == name

/-- Modelled from the spec: `feature_name_dictionary.clear()`
(models.py line 121) empties the dictionary. -/
def NameDictionary.clear (_ : NameDictionary) : NameDictionary := ⟨[]⟩

/-- models.py lines 220-223, `ClassifierPart`: a part wrapping its originating
instance and an integer label. -/
structure ClassifierPart (I : Type) where
  instance_ : I
  label : ℤ

/-- models.py lines 43-117, `FeaturizedModel` state: the configured feature
extractors (already resolved from `selected_features` by the constructor, see
`resolveSelectedFeatures`) and the feature-name dictionary.
(`part_type`, `feature_training_data` and `save_featurized` play no role in
the claims.) -/
structure FeaturizedModel (Part : Type) where
  feature_extractors : List (FeatureExtractor Part)
  feature_name_dictionary : NameDictionary

/-- models.py lines 91-114 (in `FeaturizedModel.__init__`): resolve each
selected feature name against the available extractors; a name containing the
separator is resolved component-wise into a `ConjoinedFeatureExtractor`.  An
unresolvable simple or conjoined name raises `UnrecognizedFlag`. -/
def resolveSelectedFeatures {Part : Type}
    (feature_extractors : List (FeatureExtractor Part))
    (selected_features : List String) :
    Except String (List (FeatureExtractor Part)) :=
  selected_features.mapM fun feature_name =>
    let extractor_names := pySplit ':' feature_name
    if extractor_names.length > 1 then
      let extractors := feature_extractors.filter fun e =>
        e.name ∈ extractor_names
      if extractors.length ≠ extractor_names.length then
        .error ("Invalid conjoined feature name: " ++ feature_name)
      else
        ConjoinedFeatureExtractor feature_name extractors
    else
      match feature_extractors.find? fun e => e.name == feature_name with
      | some extractor => .ok extractor
      | none => .error ("Invalid feature name: " ++ feature_name)

/-- models.py lines 129-136: the feature-registration loop of
`FeaturizedModel.train` inserts, for each extractor in list order, every
subfeature name it produces over the training parts. -/
def registerFeatures {Part : Type} (extractors : List (FeatureExtractor Part))
    (parts : List Part) (d : NameDictionary) : NameDictionary :=
  extractors.foldl
    (fun d extractor =>
      (extractor.extract_subfeature_names parts).foldl NameDictionary.insert d)
    d

/-- All subfeature names produced by the extractors over the parts, in
extractor-list order. -/
def allSubfeatureNames {Part : Type} (extractors : List (FeatureExtractor Part))
    (parts : List Part) : List String :=
  extractors.flatMap fun extractor => extractor.extract_subfeature_names parts

/-- models.py lines 119-140, `FeaturizedModel.train`: clear the feature-name
dictionary, register every extractor's subfeature names, and only then invoke
the subclass hook `_featurized_train` (modelled as the function argument
`featurized_train`, which receives the model in its post-registration
state). -/
def FeaturizedModel.train {Part β : Type} (m : FeaturizedModel Part)
    (featurized_train : FeaturizedModel Part → List Part → β)
    (parts : List Part) : FeaturizedModel Part × β :=
  let cleared := m.feature_name_dictionary.clear
  let populated :=
    { m with feature_name_dictionary :=
        registerFeatures m.feature_extractors parts cleared }
  (populated, featurized_train populated parts)

/-- models.py lines 142-146, `FeaturizedModel.test`: `assert` that the
feature-name dictionary is non-empty (Python truthiness), then invoke the
subclass hook `_featurized_test`. -/
def FeaturizedModel.test {Part β : Type} (m : FeaturizedModel Part)
    (featurized_test : List Part → β) (parts : List Part) :
    Except String β :=
  if m.feature_name_dictionary.ids_to_names.isEmpty then
    .error "Feature name dictionary must be populated either by training or by loading a model"
  else
    .ok (featurized_test parts)

/-- models.py lines 183-217, `ClassifierModel._featurize`, restricted to a
single part type (so every part is relevant).  The sparse feature matrix is
represented by its write sequence: an assignment `(part_index, feature_index,
value)` for every non-zero subfeature value whose name the dictionary knows.
A zero value is skipped (line 201), and an unknown subfeature name is a
`KeyError` caught and skipped with a debug log (lines 207-209), modelled by
the `none` branches of `filterMap`.  Also returns the gold labels. -/
def ClassifierModel._featurize {I : Type} (dict : NameDictionary)
    (extractors : List (FeatureExtractor (ClassifierPart I)))
    (parts : List (ClassifierPart I)) :
    List (ℕ × ℕ × ℚ) × List ℤ :=
  (extractors.flatMap fun extractor =>
    (extractor.extract_all parts).enum.flatMap fun part_values =>
      part_values.2.filterMap fun (nv : String × ℚ) =>
        if nv.2 = 0 then (none : Option (ℕ × ℕ × ℚ))
        else
          match dict.getId nv.1 with
          | some feature_index => some (part_values.1, feature_index, nv.2)
          | none => none,
   parts.map fun part => part.label)

/-- An extractor with its `extract_all` outputs restricted to subfeature
names the dictionary knows (used to state that unknown names are silently
ignored by `_featurize`). -/
def restrictKnown {Part : Type} (dict : NameDictionary)
    (e : FeatureExtractor Part) : FeatureExtractor Part :=
  { e with extract_all := fun parts =>
      (e.extract_all parts).map fun vals =>
        vals.filter fun nv => (dict.getId nv.1).isSome }

/-- The distinct elements of a list in order of first occurrence, skipping
those already in `seen` (specification of the insertion order the
feature-name dictionary ends up with). -/
def firstSeenAux (seen : List String) : List String → List String
  | [] => []
  | n :: ns =>
      if n ∈ seen then firstSeenAux seen ns
      else n :: firstSeenAux (seen ++ [n]) ns

/-- Test scenario extractor (src/tests/pipeline/models.py lines 93-94):
`FeatureExtractor('identity', lambda x: x, Categorical)` over integer parts.
Modelled from the spec: the base `FeatureExtractor` (not under src/) derives
subfeature names of the form `name=value` from its value function. -/
def identity_extractor : FeatureExtractor ℕ :=
  { name := "identity"
    feature_type := FeatureTypes.Categorical
    extract_subfeature_names := fun parts =>
      parts.map fun x => "identity=" ++ toString x
    extract := fun x => "identity=" ++ toString x
    extract_all := fun parts =>
      parts.map fun x => [("identity=" ++ toString x, 1)] }

/-- Test scenario extractor (src/tests/pipeline/models.py lines 95-96):
`FeatureExtractor('add1', lambda x: x + 1, Categorical)`. -/
def add1_extractor : FeatureExtractor ℕ :=
  { name := "add1"
    feature_type := FeatureTypes.Categorical
    extract_subfeature_names := fun parts =>
      parts.map fun x => "add1=" ++ toString (x + 1)
    extract := fun x => "add1=" ++ toString (x + 1)
    extract_all := fun parts =>
      parts.map fun x => [("add1=" ++ toString (x + 1), 1)] }

/-! ## Embedding of `ClassBalancingModelWrapper.rebalance`
(models.py lines 226-284), deterministic mode
(`FLAGS.rebalance_stochastically = False`, the default; the stochastic branch
draws from `np.random` and is out of scope for the claims, which only concern
row counts that are identical in both modes). -/

/-- `np.unique(labels)`: the distinct label values in increasing order. -/
def npUnique (labels : List ℤ) : List ℤ :=
  (labels.dedup).insertionSort fun a b => a ≤ b

/-- `label_counts` of models.py line 242: occurrences of each unique label,
in `npUnique` order. -/
def labelCounts (labels : List ℤ) : List ℕ :=
  (npUnique labels).map fun u => labels.count u

/-- `max_count = label_counts.max()` (line 245).  On an empty array numpy
raises; `rebalance` models that error before this value is used, so the junk
0 default is unreachable there. -/
def maxCount (labels : List ℤ) : ℕ :=
  (labelCounts labels).foldl max 0

/-- models.py lines 246-249: per class,
`int(min(max_count - current_count, (ratio - 1) * current_count))`.
Python's `int()` truncates toward zero; both arguments of `min` are
nonnegative in the `ratio > 1` branch, so truncation is the floor. -/
def countsToAdd (labels : List ℤ) (ratio : ℚ) : List ℕ :=
  (labelCounts labels).map fun (current_count : ℕ) =>
    (⌊min ((maxCount labels : ℚ) - (current_count : ℚ))
        ((ratio - 1) * (current_count : ℚ))⌋).toNat

/-- `np.where(label_indices == j)[0]`: the row indices carrying the given
label value, in increasing order. -/
def rowIndicesFor (labels : List ℤ) (u : ℤ) : List ℕ :=
  (List.range labels.length).filter fun r => labels.getD r 0 = u

/-- models.py lines 267-276, deterministic branch for class `j`:
`full_repetitions = counts_to_add[j] / len(indices)` (Python 2 integer
division), `np.tile` of the class's row indices, then a partial prefix to
reach exactly `counts_to_add[j]` rows. -/
def classAddIndices (labels : List ℤ) (ratio : ℚ) (j : ℕ) : List ℕ :=
  let label_row_indices := rowIndicesFor labels ((npUnique labels).getD j 0)
  let count_to_add := (countsToAdd labels ratio).getD j 0
  let full_repetitions := count_to_add / label_row_indices.length
  (List.replicate full_repetitions label_row_indices).flatten ++
    label_row_indices.take
      (count_to_add - full_repetitions * label_row_indices.length)

/-- models.py lines 245-284, the `ratio > 1` branch of `rebalance` after
`np.unique` has succeeded: if no rows are to be added, return the input
unchanged (lines 251-254); otherwise append, class by class (the `slices`
layout of lines 261-281), the selected duplicate rows and their labels. -/
def rebalanced (data : List (List ℚ)) (labels : List ℤ) (ratio : ℚ) :
    List (List ℚ) × List ℤ :=
  if (countsToAdd labels ratio).sum = 0 then (data, labels)
  else
    let all_indices :=
      ((List.range (npUnique labels).length).map
        (classAddIndices labels ratio)).flatten
    (data ++ all_indices.map fun r => data.getD r [],
     labels ++ all_indices.map fun r => labels.getD r 0)

/-- models.py lines 231-284, `ClassBalancingModelWrapper.rebalance`
(deterministic mode).  `data` is the sparse matrix as a list of rows.
`ratio <= 1.0` returns the input unchanged (lines 238-239).  Otherwise, with
an empty labels array, `label_counts.max()` raises a numpy `ValueError`,
modelled by the `.error` branch. -/
def rebalance (data : List (List ℚ)) (labels : List ℤ) (ratio : ℚ) :
    Except String (List (List ℚ) × List ℤ) :=
  if ratio ≤ 1 then .ok (data, labels)
  else if labels.isEmpty then
    .error "zero-size array to reduction operation maximum which has no identity"
  else .ok (rebalanced data labels ratio)

/-- The common value of every entry of trellis column `c` of
`path_scores_best` when all node scores are `a` and all transition scores are
`b`. -/
def constPathScore (sr : Semiring) (a b : ℚ) : ℕ → ℚ
  | 0 => a
  | c + 1 => sr.multiply a (sr.multiply b (constPathScore sr a b c))

/-! ## Theorems -/

theorem npArgmaxAux_replicate (n : ℕ) (idx best : ℕ) (x : ℚ) :
    npArgmaxAux idx best x (List.replicate n x) = best := by
  induction n generalizing idx with
  | zero => rfl
  | succ k ih => simp [List.replicate, npArgmaxAux, ih]

/-- `np.argmax` of a constant vector is 0 (first occurrence of the max). -/
theorem npArgmax_replicate (n : ℕ) (x : ℚ) :
    npArgmax (List.replicate n x) = 0 := by
  cases n with
  | zero => rfl
  | succ k => simp [List.replicate, npArgmax, npArgmaxAux_replicate]

theorem getD_replicate_zero {x d : ℚ} {n : ℕ} (h : 0 < n) :
    (List.replicate n x).getD 0 d = x := by
  cases n with
  | zero => omega
  | succ k => rfl

theorem finRange_map_const {β : Type} (S : ℕ) (v : β) :
    (List.finRange S).map (fun _ => v) = List.replicate S v := by
  simp [List.map_const', List.length_finRange]

theorem getD_finRange_map {β : Type} {S : ℕ} (g : Fin S → β) (k : ℕ)
    (h : k < S) (d : β) :
    ((List.finRange S).map g).getD k d = g ⟨k, h⟩ := by
  rw [List.getD_eq_getElem?_getD, List.getElem?_map]
  rw [List.getElem?_eq_getElem (by simpa using h)]
  simp [List.getElem_finRange, Fin.cast]

/-- On an all-`a` node-score / all-`b` transition-score trellis, every
predecessor-score column is constant. -/
theorem predecessor_scores_list_const {S : ℕ} (sr : Semiring)
    (a b : ℚ) (tw : TransitionWeights S) (htw : ∀ c i j, tw.forColumn c i j = b)
    (c : ℕ) (j : Fin S)
    (hps : ∀ i : Fin S,
      path_scores_best sr npArgmax (fun _ _ => a) tw c i = constPathScore sr a b c) :
    predecessor_scores_list sr (tw.forColumn c)
      (path_scores_best sr npArgmax (fun _ _ => a) tw c) j
      = List.replicate S (sr.multiply b (constPathScore sr a b c)) := by
  unfold predecessor_scores_list
  rw [List.map_congr_left fun i _ => by rw [htw, hps]]
  exact finRange_map_const S _

/-- On an all-`a` node-score / all-`b` transition-score trellis, every column
of the best-path trellis scores is constant across states. -/
theorem path_scores_best_const {S : ℕ} (hS : 0 < S) (sr : Semiring)
    (a b : ℚ) (tw : TransitionWeights S) (htw : ∀ c i j, tw.forColumn c i j = b) :
    ∀ c (j : Fin S),
      path_scores_best sr npArgmax (fun _ _ => a) tw c j = constPathScore sr a b c := by
  intro c
  induction c with
  | zero => intro j; rfl
  | succ c ih =>
      intro j
      have hcol := predecessor_scores_list_const sr a b tw htw c j ih
      show sr.multiply a
          ((predecessor_scores_list sr (tw.forColumn c)
            (path_scores_best sr npArgmax (fun _ _ => a) tw c) j).getD
          (npArgmax (predecessor_scores_list sr (tw.forColumn c)
            (path_scores_best sr npArgmax (fun _ _ => a) tw c) j)) 0) = _
      rw [hcol, npArgmax_replicate, getD_replicate_zero hS]
      rfl

/-- On a constant trellis, every backpointer written by the recursion
(columns 1 and beyond) is the first state, index 0. -/
theorem predecessors_const {S : ℕ} (hS : 0 < S) (sr : Semiring)
    (a b : ℚ) (tw : TransitionWeights S) (htw : ∀ c i j, tw.forColumn c i j = b)
    (sentinel : ℕ) (c : ℕ) (j : Fin S) :
    predecessors sr npArgmax sentinel (fun _ _ => a) tw (c + 1) j = 0 := by
  show npArgmax (predecessor_scores_list sr (tw.forColumn c)
    (path_scores_best sr npArgmax (fun _ _ => a) tw c) j) = 0
  rw [predecessor_scores_list_const sr a b tw htw c j
    (fun i => path_scores_best_const hS sr a b tw htw c i)]
  exact npArgmax_replicate S _

/-- C2: under MAX_MULTIPLY or MAX_PLUS (the semirings with `arg_sum`
defined), decoding a trellis whose node scores are all one constant and whose
transition scores are all another constant returns the path that repeats the
first state (index 0) at every position: ties are resolved by `np.argmax`'s
first-occurrence convention. -/
theorem run_viterbi_constant_trellis_first_state {α : Type} [Inhabited α]
    (sr : Semiring) (hsr : sr = Semiring.MAX_MULTIPLY ∨ sr = Semiring.MAX_PLUS)
    (S P : ℕ) (hS : 0 < S) (hP : 0 < P) (a b : ℚ)
    (tw : TransitionWeights S) (htw : ∀ c i j, tw.forColumn c i j = b) :
    ∃ score,
      ViterbiDecoder.run_viterbi (⟨none, sr⟩ : ViterbiDecoder α) S P
        (fun _ _ => a) tw true =
        .ok (.withPath score (Sum.inl (List.replicate P 0))) := by
  have hargf : sr.arg_sum = some npArgmax := by
    rcases hsr with h | h <;> subst h <;> rfl
  have hlast : ((List.finRange S).map fun j =>
      path_scores_best sr npArgmax (fun _ _ => a) tw (P - 1) j)
      = List.replicate S (constPathScore sr a b (P - 1)) := by
    rw [List.map_congr_left fun j _ => path_scores_best_const hS sr a b tw htw (P - 1) j]
    exact finRange_map_const S _
  have hbf : npArgmax ((List.finRange S).map fun j =>
      path_scores_best sr npArgmax (fun _ _ => a) tw (P - 1) j) = 0 := by
    rw [hlast]; exact npArgmax_replicate S _
  have hentry : ∀ k, k ≤ P - 1 →
      entryFromEnd (predecessors sr npArgmax 0 (fun _ _ => a) tw) 0 P k = 0 := by
    intro k
    induction k with
    | zero => intro _; rfl
    | succ k ih =>
        intro hk
        show predAt (predecessors sr npArgmax 0 (fun _ _ => a) tw) (P - 1 - k)
          (entryFromEnd (predecessors sr npArgmax 0 (fun _ _ => a) tw) 0 P k) = 0
        rw [ih (by omega)]
        unfold predAt
        rw [dif_pos hS]
        obtain ⟨m, hm⟩ : ∃ m, P - 1 - k = m + 1 := ⟨P - 2 - k, by omega⟩
        rw [hm]
        exact predecessors_const hS sr a b tw htw 0 m _
  have hpath : ((List.range P).map fun c =>
      entryFromEnd (predecessors sr npArgmax 0 (fun _ _ => a) tw)
        (npArgmax ((List.finRange S).map fun j =>
          path_scores_best sr npArgmax (fun _ _ => a) tw (P - 1) j)) P (P - 1 - c))
      = List.replicate P 0 := by
    rw [hbf]
    refine List.eq_replicate_iff.2 ⟨by simp, ?_⟩
    intro x hx
    simp only [List.mem_map, List.mem_range] at hx
    obtain ⟨c, _, rfl⟩ := hx
    exact hentry (P - 1 - c) (by omega)
  refine ⟨((List.finRange S).map fun j =>
      path_scores_best sr npArgmax (fun _ _ => a) tw (P - 1) j).getD
      (npArgmax ((List.finRange S).map fun j =>
        path_scores_best sr npArgmax (fun _ _ => a) tw (P - 1) j)) 0, ?_⟩
  have h1 : ViterbiDecoder.run_viterbi (⟨none, sr⟩ : ViterbiDecoder α) S P
      (fun _ _ => a) tw true =
      .ok (.withPath
        (((List.finRange S).map fun j =>
          path_scores_best sr npArgmax (fun _ _ => a) tw (P - 1) j).getD
          (npArgmax ((List.finRange S).map fun j =>
            path_scores_best sr npArgmax (fun _ _ => a) tw (P - 1) j)) 0)
        (Sum.inl ((List.range P).map fun c =>
          entryFromEnd (predecessors sr npArgmax 0 (fun _ _ => a) tw)
            (npArgmax ((List.finRange S).map fun j =>
              path_scores_best sr npArgmax (fun _ _ => a) tw (P - 1) j)) P
            (P - 1 - c)))) := by
    unfold ViterbiDecoder.run_viterbi
    rw [hargf]
    rfl
  rw [h1, hpath]


/-- Witness for C2: 2 states, 3 positions, all scores 1, MAX_MULTIPLY. -/
theorem run_viterbi_constant_trellis_first_state_witness :
    (Semiring.MAX_MULTIPLY = Semiring.MAX_MULTIPLY ∨
      Semiring.MAX_MULTIPLY = Semiring.MAX_PLUS) ∧ 0 < 2 ∧ 0 < 3 ∧
    ∃ score,
      ViterbiDecoder.run_viterbi
          (⟨none, Semiring.MAX_MULTIPLY⟩ : ViterbiDecoder ℕ) 2 3
          (fun _ _ => (1 : ℚ)) (.stationary fun _ _ => (1 : ℚ)) true =
        .ok (.withPath score (Sum.inl (List.replicate 3 0))) :=
  ⟨Or.inl rfl, by decide, by decide,
    run_viterbi_constant_trellis_first_state Semiring.MAX_MULTIPLY (Or.inl rfl)
      2 3 (by decide) (by decide) 1 1 (.stationary fun _ _ => (1 : ℚ))
      (fun _ _ _ => rfl)⟩

/-- C9: the int32 sentinel written into `predecessors[:, 0]` (the cast NaN)
is never read: the backward reconstruction only consults columns `1` through
`num_positions - 1`, so for every trellis the decoded result is identical for
any two sentinel values. -/
theorem run_viterbi_sentinel_never_read {α : Type} [Inhabited α]
    (possible_states : Option (List α)) (sr : Semiring) (argf : List ℚ → ℕ)
    (sentinel₁ sentinel₂ : ℕ) (S P : ℕ) (node_scores : Fin S → ℕ → ℚ)
    (tw : TransitionWeights S) :
    run_viterbi_best possible_states sr argf sentinel₁ S P node_scores tw =
    run_viterbi_best possible_states sr argf sentinel₂ S P node_scores tw := by
  have hpred : ∀ c (j : Fin S),
      predecessors sr argf sentinel₁ node_scores tw (c + 1) j =
      predecessors sr argf sentinel₂ node_scores tw (c + 1) j := fun c j => rfl
  have hentry : ∀ bf k, k ≤ P - 1 →
      entryFromEnd (predecessors sr argf sentinel₁ node_scores tw) bf P k =
      entryFromEnd (predecessors sr argf sentinel₂ node_scores tw) bf P k := by
    intro bf k
    induction k with
    | zero => intro _; rfl
    | succ k ih =>
        intro hk
        show predAt (predecessors sr argf sentinel₁ node_scores tw) (P - 1 - k) _
          = predAt (predecessors sr argf sentinel₂ node_scores tw) (P - 1 - k) _
        rw [ih (by omega)]
        unfold predAt
        obtain ⟨m, hm⟩ : ∃ m, P - 1 - k = m + 1 := ⟨P - 2 - k, by omega⟩
        rw [hm]
        split
        · exact hpred m _
        · rfl
  have hpaths : ((List.range P).map fun c =>
      entryFromEnd (predecessors sr argf sentinel₁ node_scores tw)
        (argf ((List.finRange S).map fun j =>
          path_scores_best sr argf node_scores tw (P - 1) j)) P (P - 1 - c))
      = ((List.range P).map fun c =>
      entryFromEnd (predecessors sr argf sentinel₂ node_scores tw)
        (argf ((List.finRange S).map fun j =>
          path_scores_best sr argf node_scores tw (P - 1) j)) P (P - 1 - c)) := by
    refine List.map_congr_left fun c hc => ?_
    have hc' : c < P := List.mem_range.1 hc
    exact hentry _ (P - 1 - c) (by omega)
  show ViterbiResult.withPath
      (((List.finRange S).map fun j =>
        path_scores_best sr argf node_scores tw (P - 1) j).getD
        (argf ((List.finRange S).map fun j =>
          path_scores_best sr argf node_scores tw (P - 1) j)) 0)
      (applyPossibleStates possible_states
        ((List.range P).map fun c =>
          entryFromEnd (predecessors sr argf sentinel₁ node_scores tw)
            (argf ((List.finRange S).map fun j =>
              path_scores_best sr argf node_scores tw (P - 1) j)) P (P - 1 - c)))
      = _
  rw [hpaths]
  rfl

/-- C10: on a single-position trellis (`P = 1`), best-path decoding under any
semiring with `arg_sum` defined returns the `arg_sum`-selected entry of
column 0 as the score and the one-element path of that state's index, mapped
through `possible_states` when provided — for every `transition_weights`
value, which is therefore never read. -/
theorem run_viterbi_single_position {α : Type} [Inhabited α]
    (d : ViterbiDecoder α) (f : List ℚ → ℕ) (hargf : d.semiring.arg_sum = some f)
    (S : ℕ) (node_scores : Fin S → ℕ → ℚ) (tw : TransitionWeights S)
    (h : f ((List.finRange S).map fun j => node_scores j 0) < S) :
    d.run_viterbi S 1 node_scores tw true =
      .ok (.withPath
        (node_scores ⟨f ((List.finRange S).map fun j => node_scores j 0), h⟩ 0)
        (applyPossibleStates d.possible_states
          [f ((List.finRange S).map fun j => node_scores j 0)])) := by
  unfold ViterbiDecoder.run_viterbi
  rw [hargf]
  show Except.ok (ViterbiResult.withPath
      (((List.finRange S).map fun j => node_scores j 0).getD
        (f ((List.finRange S).map fun j => node_scores j 0)) 0)
      (applyPossibleStates d.possible_states
        [f ((List.finRange S).map fun j => node_scores j 0)])) = _
  rw [getD_finRange_map (fun j => node_scores j 0) _ h 0]

/-- Extending a path by one more column factors its total weight into the
new node score, the new transition weight, and the old total weight. -/
theorem pathWeightEnd_snoc {S : ℕ} (node_scores : Fin S → ℕ → ℚ)
    (tw : TransitionWeights S) (c : ℕ) (p : Fin c → Fin S) (i j : Fin S) :
    pathWeightEnd node_scores tw (c + 1) (Fin.snoc p i) j
      = node_scores j (c + 1) *
        (tw.forColumn c i j * pathWeightEnd node_scores tw c p i) := by
  unfold pathWeightEnd
  rw [Fin.prod_univ_castSucc
    (fun t : Fin (c + 2) =>
      node_scores ((Fin.snoc (Fin.snoc p i) j : Fin (c + 2) → Fin S) t) t.val)]
  rw [Fin.prod_univ_castSucc
    (fun t : Fin (c + 1) =>
      tw.forColumn t.val ((Fin.snoc (Fin.snoc p i) j : Fin (c + 2) → Fin S) t.castSucc)
        ((Fin.snoc (Fin.snoc p i) j : Fin (c + 2) → Fin S) t.succ))]
  simp only [Fin.snoc_castSucc, Fin.snoc_last, Fin.succ_castSucc, Fin.succ_last,
    Fin.coe_castSucc, Fin.val_last]
  ring

/-- The `return_best_path=False` trellis recursion under PLUS_MULTIPLY
computes, at each column and state, the sum of the weights of all paths
ending in that state. -/
theorem path_scores_sum_plus_multiply {S : ℕ} (node_scores : Fin S → ℕ → ℚ)
    (tw : TransitionWeights S) :
    ∀ (c : ℕ) (j : Fin S),
      path_scores_sum Semiring.PLUS_MULTIPLY node_scores tw c j
        = ∑ p : Fin c → Fin S, pathWeightEnd node_scores tw c p j := by
  intro c
  induction c with
  | zero =>
      intro j
      rw [Fintype.sum_unique]
      show node_scores j 0 = pathWeightEnd node_scores tw 0 default j
      unfold pathWeightEnd
      rw [Fin.prod_univ_zero, Fin.prod_univ_one, mul_one]
      have h0 : ((Fin.snoc default j : Fin 1 → Fin S) 0) = j := by
        show ((Fin.snoc default j : Fin 1 → Fin S) (Fin.last 0)) = j
        rw [Fin.snoc_last]
      rw [h0]
      rfl
  | succ c ih =>
      intro j
      have hlist : (predecessor_scores_list Semiring.PLUS_MULTIPLY (tw.forColumn c)
          (path_scores_sum Semiring.PLUS_MULTIPLY node_scores tw c) j).sum
          = ∑ i : Fin S, tw.forColumn c i j *
              path_scores_sum Semiring.PLUS_MULTIPLY node_scores tw c i := by
        rw [Fin.sum_univ_def]
        rfl
      have he : ∀ (i : Fin S) (p : Fin c → Fin S),
          (Fin.snocEquiv (fun _ => Fin S)) (i, p) = Fin.snoc p i := fun i p => rfl
      calc path_scores_sum Semiring.PLUS_MULTIPLY node_scores tw (c + 1) j
          = node_scores j (c + 1) * ∑ i : Fin S, tw.forColumn c i j *
              path_scores_sum Semiring.PLUS_MULTIPLY node_scores tw c i := by
            show node_scores j (c + 1) *
              (predecessor_scores_list Semiring.PLUS_MULTIPLY (tw.forColumn c)
                (path_scores_sum Semiring.PLUS_MULTIPLY node_scores tw c) j).sum = _
            rw [hlist]
        _ = ∑ i : Fin S, ∑ p : Fin c → Fin S,
              node_scores j (c + 1) *
                (tw.forColumn c i j * pathWeightEnd node_scores tw c p i) := by
            simp only [ih]
            rw [Finset.mul_sum]
            refine Finset.sum_congr rfl fun i _ => ?_
            rw [Finset.mul_sum, Finset.mul_sum]
        _ = ∑ p : Fin (c + 1) → Fin S, pathWeightEnd node_scores tw (c + 1) p j := by
            rw [← Equiv.sum_comp (Fin.snocEquiv (fun _ => Fin S))
              (fun p => pathWeightEnd node_scores tw (c + 1) p j),
              Fintype.sum_prod_type]
            refine Finset.sum_congr rfl fun i _ => Finset.sum_congr rfl fun p _ => ?_
            rw [he, pathWeightEnd_snoc]

/-- C1: for every valid trellis (any number of states, at least one
position, stationary or per-item transition weights), `run_viterbi` under
PLUS_MULTIPLY with `return_best_path=False` returns exactly the sum, over
all `S ^ P` state paths, of the product of the path's per-position node
scores and its per-transition weights. -/
theorem run_viterbi_plus_multiply_sums_all_paths {α : Type} [Inhabited α]
    (possible_states : Option (List α)) (S P : ℕ) (hP : 1 ≤ P)
    (node_scores : Fin S → ℕ → ℚ) (tw : TransitionWeights S) :
    ViterbiDecoder.run_viterbi
        (⟨possible_states, Semiring.PLUS_MULTIPLY⟩ : ViterbiDecoder α)
        S P node_scores tw false
      = .ok (.scoreOnly (totalPathScore S P node_scores tw)) := by
  obtain ⟨Q, rfl⟩ : ∃ Q, P = Q + 1 := ⟨P - 1, by omega⟩
  have he : ∀ (j : Fin S) (p : Fin Q → Fin S),
      (Fin.snocEquiv (fun _ => Fin S)) (j, p) = Fin.snoc p j := fun j p => rfl
  have h2 : ((List.finRange S).map fun j =>
      path_scores_sum Semiring.PLUS_MULTIPLY node_scores tw Q j).sum
      = totalPathScore S (Q + 1) node_scores tw := by
    rw [← Fin.sum_univ_def]
    simp only [path_scores_sum_plus_multiply node_scores tw Q]
    unfold totalPathScore
    rw [← Equiv.sum_comp (Fin.snocEquiv (fun _ => Fin S)), Fintype.sum_prod_type]
    refine Finset.sum_congr rfl fun j _ => Finset.sum_congr rfl fun p _ => ?_
    rw [he]
    rfl
  show Except.ok (ViterbiResult.scoreOnly
    (((List.finRange S).map fun j =>
      path_scores_sum Semiring.PLUS_MULTIPLY node_scores tw Q j).sum)) = _
  rw [h2]

/-- Witness for C1: a 2-state, 3-position trellis with varying node and
transition scores. -/
theorem run_viterbi_plus_multiply_sums_all_paths_witness :
    1 ≤ 3 ∧
    ViterbiDecoder.run_viterbi
        (⟨none, Semiring.PLUS_MULTIPLY⟩ : ViterbiDecoder ℕ) 2 3
        (fun s c => (s.val : ℚ) + c)
        (.stationary fun i j => (i.val : ℚ) + j.val) false
      = .ok (.scoreOnly (totalPathScore 2 3 (fun s c => (s.val : ℚ) + c)
          (.stationary fun i j => (i.val : ℚ) + j.val))) :=
  ⟨by decide,
    run_viterbi_plus_multiply_sums_all_paths none 2 3 (by decide)
      (fun s c => (s.val : ℚ) + c) (.stationary fun i j => (i.val : ℚ) + j.val)⟩

theorem foldl_insert_eq (ns : List String) : ∀ s : List String,
    ((ns.foldl NameDictionary.insert ⟨s⟩).ids_to_names) = s ++ firstSeenAux s ns := by
  induction ns with
  | nil => intro s; simp [firstSeenAux]
  | cons n ns ih =>
      intro s
      show ((ns.foldl NameDictionary.insert (NameDictionary.insert ⟨s⟩ n)).ids_to_names) = _
      have fse : firstSeenAux s (n :: ns)
          = if n ∈ s then firstSeenAux s ns
            else n :: firstSeenAux (s ++ [n]) ns := rfl
      by_cases h : n ∈ s
      · have e : NameDictionary.insert ⟨s⟩ n = ⟨s⟩ := by
          unfold NameDictionary.insert
          rw [if_pos h]
        rw [e, ih s, fse, if_pos h]
      · have e : NameDictionary.insert ⟨s⟩ n = ⟨s ++ [n]⟩ := by
          unfold NameDictionary.insert
          rw [if_neg h]
        rw [e, ih (s ++ [n]), fse, if_neg h, List.append_assoc]
        rfl

theorem mem_firstSeenAux : ∀ (ns s : List String) (x : String),
    x ∈ firstSeenAux s ns ↔ x ∈ ns ∧ x ∉ s := by
  intro ns
  induction ns with
  | nil => simp [firstSeenAux]
  | cons n ns ih =>
      intro s x
      unfold firstSeenAux
      by_cases h : n ∈ s
      · rw [if_pos h, ih]
        constructor
        · rintro ⟨hx, hxs⟩
          exact ⟨List.mem_cons_of_mem _ hx, hxs⟩
        · rintro ⟨hx, hxs⟩
          rcases List.mem_cons.1 hx with rfl | hx
          · exact absurd h hxs
          · exact ⟨hx, hxs⟩
      · rw [if_neg h]
        constructor
        · intro hx
          rcases List.mem_cons.1 hx with rfl | hx
          · exact ⟨List.mem_cons_self _ _, h⟩
          · obtain ⟨h1, h2⟩ := (ih (s ++ [n]) x).1 hx
            exact ⟨List.mem_cons_of_mem _ h1,
              fun hs => h2 (List.mem_append.2 (Or.inl hs))⟩
        · rintro ⟨hx, hxs⟩
          rcases List.mem_cons.1 hx with rfl | hx
          · exact List.mem_cons_self _ _
          · by_cases hxn : x = n
            · exact hxn ▸ List.mem_cons_self _ _
            · refine List.mem_cons_of_mem _ ((ih (s ++ [n]) x).2 ⟨hx, fun hs => ?_⟩)
              rcases List.mem_append.1 hs with h1 | h1
              · exact hxs h1
              · exact hxn (List.mem_singleton.1 h1)

theorem nodup_append_firstSeenAux : ∀ (ns s : List String), s.Nodup →
    (s ++ firstSeenAux s ns).Nodup := by
  intro ns
  induction ns with
  | nil => intro s hs; simpa [firstSeenAux]
  | cons n ns ih =>
      intro s hs
      unfold firstSeenAux
      by_cases h : n ∈ s
      · rw [if_pos h]
        exact ih s hs
      · rw [if_neg h]
        have hsn : (s ++ [n]).Nodup := by
          simp [List.nodup_append, hs, h]
        have := ih (s ++ [n]) hsn
        rwa [List.append_assoc] at this

theorem pairwise_firstSeenAux : ∀ (ns s : List String),
    (firstSeenAux s ns).Pairwise fun x y => ns.indexOf x < ns.indexOf y := by
  intro ns
  induction ns with
  | nil => intro s; simp [firstSeenAux]
  | cons n ns ih =>
      intro s
      unfold firstSeenAux
      by_cases h : n ∈ s
      · rw [if_pos h]
        refine (ih s).imp_of_mem fun {x y} hx hy hxy => ?_
        have hxn : x ≠ n := fun he =>
          ((mem_firstSeenAux ns s x).1 hx).2 (he ▸ h)
        have hyn : y ≠ n := fun he =>
          ((mem_firstSeenAux ns s y).1 hy).2 (he ▸ h)
        rw [List.indexOf_cons_ne _ (Ne.symm hxn), List.indexOf_cons_ne _ (Ne.symm hyn)]
        exact Nat.succ_lt_succ hxy
      · rw [if_neg h]
        rw [List.pairwise_cons]
        constructor
        · intro y hy
          have hyn : y ≠ n := fun he =>
            ((mem_firstSeenAux ns (s ++ [n]) y).1 hy).2
              (he ▸ List.mem_append.2 (Or.inr (List.mem_singleton.2 rfl)))
          rw [List.indexOf_cons_self, List.indexOf_cons_ne _ (Ne.symm hyn)]
          exact Nat.succ_pos _
        · refine (ih (s ++ [n])).imp_of_mem fun {x y} hx hy hxy => ?_
          have hxn : x ≠ n := fun he =>
            ((mem_firstSeenAux ns (s ++ [n]) x).1 hx).2
              (he ▸ List.mem_append.2 (Or.inr (List.mem_singleton.2 rfl)))
          have hyn : y ≠ n := fun he =>
            ((mem_firstSeenAux ns (s ++ [n]) y).1 hy).2
              (he ▸ List.mem_append.2 (Or.inr (List.mem_singleton.2 rfl)))
          rw [List.indexOf_cons_ne _ (Ne.symm hxn), List.indexOf_cons_ne _ (Ne.symm hyn)]
          exact Nat.succ_lt_succ hxy

theorem findIdx?_nodup_getElem : ∀ (l : List String), l.Nodup →
    ∀ (k : ℕ) (hk : k < l.length) (i : ℕ),
      l.findIdx? (fun n => n == l[k]) i = some (i + k) := by
  intro l
  induction l with
  | nil =>
      intro _ k hk i
      simp at hk
  | cons x xs ih =>
      intro hn k hk i
      cases k with
      | zero => simp [List.findIdx?_cons]
      | succ k =>
          have hk' : k < xs.length := by simpa using hk
          have hxk : x ≠ xs[k] := fun he =>
            (List.nodup_cons.1 hn).1 (he ▸ List.getElem_mem hk')
          rw [List.findIdx?_cons]
          rw [if_neg (by simpa using hxk)]
          have := ih (List.nodup_cons.1 hn).2 k hk' (i + 1)
          rw [show (x :: xs)[k + 1] = xs[k] from rfl, this]
          congr 1
          omega

theorem registerFeatures_eq_foldl {Part : Type}
    (extractors : List (FeatureExtractor Part)) (parts : List Part) :
    ∀ d, registerFeatures extractors parts d =
      (allSubfeatureNames extractors parts).foldl NameDictionary.insert d := by
  unfold registerFeatures allSubfeatureNames
  induction extractors with
  | nil => intro d; rfl
  | cons e es ih =>
      intro d
      rw [List.flatMap_cons, List.foldl_append, List.foldl_cons]
      exact ih _

theorem filterMap_filter_eq {α β : Type} (p : α → Bool) (f : α → Option β)
    (l : List α) (h : ∀ x, p x = false → f x = none) :
    (l.filter p).filterMap f = l.filterMap f := by
  induction l with
  | nil => rfl
  | cons x xs ih =>
      by_cases hx : p x
      · rw [List.filter_cons_of_pos hx, List.filterMap_cons, List.filterMap_cons, ih]
      · rw [List.filter_cons_of_neg hx, List.filterMap_cons,
          h x (by simpa using hx), ih]

/-- Unknown subfeature names have no effect on `_featurize`: restricting
every extractor's outputs to dictionary-known names yields the same sparse
matrix and labels (the `KeyError` path only logs and skips). -/
theorem featurize_ignores_unknown {I : Type} (dict : NameDictionary)
    (extractors : List (FeatureExtractor (ClassifierPart I)))
    (parts : List (ClassifierPart I)) :
    ClassifierModel._featurize dict (extractors.map (restrictKnown dict)) parts =
      ClassifierModel._featurize dict extractors parts := by
  unfold ClassifierModel._featurize
  refine congrArg (fun l => (l, parts.map fun part => part.label)) ?_
  rw [List.flatMap_map]
  refine congrArg (List.flatMap extractors) (funext fun e => ?_)
  show ((e.extract_all parts).map (fun vals =>
      vals.filter fun nv => (dict.getId nv.1).isSome)).enum.flatMap _ = _
  rw [List.enum_map, List.flatMap_map]
  refine congrArg (List.flatMap (e.extract_all parts).enum) (funext fun pv => ?_)
  show (pv.2.filter fun nv => (dict.getId nv.1).isSome).filterMap _ = _
  refine filterMap_filter_eq _ _ _ fun nv hq => ?_
  show (if nv.2 = 0 then (none : Option (ℕ × ℕ × ℚ))
    else match dict.getId nv.1 with
      | some feature_index => some (pv.1, feature_index, nv.2)
      | none => none) = none
  split
  · rfl
  · cases hgn : dict.getId nv.1 with
    | none => rfl
    | some fi =>
        rw [hgn] at hq
        simp at hq

/-- C3: `FeaturizedModel.train` rebuilds the feature-name dictionary so that
it holds exactly the subfeature names the configured extractors produce over
the training parts, without duplicates, in first-seen order following
extractor-list order, with indices contiguous from 0; any previous dictionary
content is cleared first; the `_featurized_train` hook receives the model
only after the dictionary is fully populated; and `_featurize` silently
skips subfeature names missing from the dictionary rather than failing. -/
theorem featurized_model_train_builds_dictionary {Part β : Type}
    (m : FeaturizedModel Part) (hook : FeaturizedModel Part → List Part → β)
    (parts : List Part) :
    ((m.train hook parts).1.feature_name_dictionary.ids_to_names
        = firstSeenAux [] (allSubfeatureNames m.feature_extractors parts)) ∧
    (∀ name, name ∈ (m.train hook parts).1.feature_name_dictionary.ids_to_names
        ↔ name ∈ allSubfeatureNames m.feature_extractors parts) ∧
    (m.train hook parts).1.feature_name_dictionary.ids_to_names.Nodup ∧
    ((m.train hook parts).1.feature_name_dictionary.ids_to_names.Pairwise
      fun x y => (allSubfeatureNames m.feature_extractors parts).indexOf x
        < (allSubfeatureNames m.feature_extractors parts).indexOf y) ∧
    (∀ k, k < (m.train hook parts).1.feature_name_dictionary.ids_to_names.length →
      (m.train hook parts).1.feature_name_dictionary.getId
        ((m.train hook parts).1.feature_name_dictionary.ids_to_names.getD k "")
        = some k) ∧
    (∀ d₀ : NameDictionary,
      FeaturizedModel.train ⟨m.feature_extractors, d₀⟩ hook parts
        = m.train hook parts) ∧
    ((m.train hook parts).2 = hook (m.train hook parts).1 parts) ∧
    (∀ (dict : NameDictionary)
        (extractors : List (FeatureExtractor (ClassifierPart Part)))
        (ps : List (ClassifierPart Part)),
      ClassifierModel._featurize dict (extractors.map (restrictKnown dict)) ps =
        ClassifierModel._featurize dict extractors ps) := by
  have h1 : (m.train hook parts).1.feature_name_dictionary.ids_to_names
      = firstSeenAux [] (allSubfeatureNames m.feature_extractors parts) := by
    show (registerFeatures m.feature_extractors parts ⟨[]⟩).ids_to_names = _
    rw [registerFeatures_eq_foldl]
    rw [foldl_insert_eq _ []]
    rw [List.nil_append]
  have hnodup : (m.train hook parts).1.feature_name_dictionary.ids_to_names.Nodup := by
    rw [h1]
    have := nodup_append_firstSeenAux
      (allSubfeatureNames m.feature_extractors parts) [] List.nodup_nil
    rwa [List.nil_append] at this
  refine ⟨h1, ?_, hnodup, ?_, ?_, ?_, rfl, featurize_ignores_unknown⟩
  · intro name
    rw [h1, mem_firstSeenAux]
    simp
  · rw [h1]
    exact pairwise_firstSeenAux _ []
  · intro k hk
    unfold NameDictionary.getId
    rw [List.getD_eq_getElem _ _ hk]
    have := findIdx?_nodup_getElem _ hnodup k hk 0
    rwa [Nat.zero_add] at this
  · intro d₀
    rfl

/-- Witness for C3 at the test extractors over parts `[1, 2]` and a stale
initial dictionary: the first registered name gets index 0. -/
theorem featurized_model_train_builds_dictionary_witness :
    0 < ((FeaturizedModel.train ⟨[identity_extractor], ⟨["stale"]⟩⟩
        (fun _ _ => ()) [1, 2]).1.feature_name_dictionary.ids_to_names).length ∧
    (FeaturizedModel.train ⟨[identity_extractor], ⟨["stale"]⟩⟩
        (fun _ _ => ()) [1, 2]).1.feature_name_dictionary.getId
      ((FeaturizedModel.train ⟨[identity_extractor], ⟨["stale"]⟩⟩
        (fun _ _ => ()) [1, 2]).1.feature_name_dictionary.ids_to_names.getD 0 "")
      = some 0 :=
  ⟨by decide,
    (featurized_model_train_builds_dictionary
      ⟨[identity_extractor], ⟨["stale"]⟩⟩ (fun _ _ => ()) [1, 2]).2.2.2.2.1
      0 (by decide)⟩

theorem mem_npUnique {labels : List ℤ} {u : ℤ} :
    u ∈ npUnique labels ↔ u ∈ labels := by
  unfold npUnique
  rw [(List.perm_insertionSort _ _).mem_iff]
  exact List.mem_dedup

theorem npUnique_nodup (labels : List ℤ) : (npUnique labels).Nodup :=
  (List.perm_insertionSort _ _).nodup_iff.2 (List.nodup_dedup labels)

theorem mem_rowIndicesFor {labels : List ℤ} {u : ℤ} {r : ℕ} :
    r ∈ rowIndicesFor labels u ↔ r < labels.length ∧ labels.getD r 0 = u := by
  unfold rowIndicesFor
  simp [List.mem_filter, List.mem_range]

theorem rowIndicesFor_length_pos {labels : List ℤ} {u : ℤ} (h : u ∈ labels) :
    0 < (rowIndicesFor labels u).length := by
  obtain ⟨n, hn, rfl⟩ := List.mem_iff_getElem.1 h
  exact List.length_pos_of_mem
    (mem_rowIndicesFor.2 ⟨hn, List.getD_eq_getElem _ _ hn⟩)

/-- Every row index a class contributes comes from that class's rows. -/
theorem mem_of_mem_classAddIndices {labels : List ℤ} {ratio : ℚ} {j : ℕ}
    {r : ℕ} (hr : r ∈ classAddIndices labels ratio j) :
    r ∈ rowIndicesFor labels ((npUnique labels).getD j 0) := by
  unfold classAddIndices at hr
  rw [List.mem_append] at hr
  rcases hr with hr | hr
  · rw [List.mem_flatten] at hr
    obtain ⟨l, hl, hrl⟩ := hr
    rw [List.eq_of_mem_replicate hl] at hrl
    exact hrl
  · exact List.mem_of_mem_take hr

/-- Full repetitions plus a partial prefix produce exactly `counts_to_add[j]`
duplicated rows for class `j`. -/
theorem classAddIndices_length {labels : List ℤ} {ratio : ℚ} {j : ℕ}
    (hpos : 0 < (rowIndicesFor labels ((npUnique labels).getD j 0)).length) :
    (classAddIndices labels ratio j).length = (countsToAdd labels ratio).getD j 0 := by
  unfold classAddIndices
  rw [List.length_append, List.length_flatten, List.map_replicate,
    List.sum_const_nat, List.length_take]
  set L := (rowIndicesFor labels ((npUnique labels).getD j 0)).length
  set cta := (countsToAdd labels ratio).getD j 0
  have h := Nat.div_add_mod cta L
  have e1 : cta - cta / L * L = cta % L := by
    rw [Nat.mul_comm]
    exact Nat.sub_eq_of_eq_add (by rw [Nat.add_comm]; exact h.symm)
  rw [e1, Nat.min_eq_left (Nat.le_of_lt (Nat.mod_lt cta hpos)), Nat.mul_comm]
  exact h

/-- A map over `List.range` whose entries vanish except at `j` sums to its
`j`-th entry. -/
theorem sum_range_map_single (g : ℕ → ℕ) (n j : ℕ) (hj : j < n)
    (h0 : ∀ k, k < n → k ≠ j → g k = 0) :
    ((List.range n).map g).sum = g j := by
  induction n with
  | zero => omega
  | succ n ih =>
      rw [List.range_succ, List.map_append, List.sum_append]
      by_cases hjn : j = n
      · subst hjn
        have hz : ((List.range j).map g).sum = 0 := List.sum_eq_zero (by
          intro x hx
          obtain ⟨k, hk, rfl⟩ := List.mem_map.1 hx
          have hkj := List.mem_range.1 hk
          exact h0 k (by omega) (by omega))
        simp [hz]
      · have hj' : j < n := by omega
        rw [ih hj' (fun k hk hkj => h0 k (by omega) hkj)]
        have hz : g n = 0 := h0 n (by omega) (by omega)
        simp [hz]

/-- `counts_to_add[j]` spelled with the claim's formula
`int(min(majority_count - current_count, (ratio - 1) * current_count))`. -/
theorem countsToAdd_getD {labels : List ℤ} {ratio : ℚ} {j : ℕ}
    (hj : j < (npUnique labels).length) :
    (countsToAdd labels ratio).getD j 0 =
      (⌊min ((maxCount labels : ℚ) - (labels.count ((npUnique labels).getD j 0) : ℚ))
          ((ratio - 1) * (labels.count ((npUnique labels).getD j 0) : ℚ))⌋).toNat := by
  have hj2 : j < (labelCounts labels).length := by
    unfold labelCounts; simpa using hj
  have hj3 : j < (countsToAdd labels ratio).length := by
    unfold countsToAdd; simpa using hj2
  rw [List.getD_eq_getElem _ _ hj3, List.getD_eq_getElem _ _ hj]
  unfold countsToAdd
  rw [List.getElem_map]
  unfold labelCounts
  rw [List.getElem_map]

/-- C4 (amended): for `ratio > 1` on a nonempty labels array, rebalance adds
to each class exactly
`int(min(majority_count - current_count, (ratio - 1) * current_count))`
rows (so a fractional ratio like 2.2 on a singleton class adds 1 copy, for
`int(2.2) = 2` total rows, not 2 additional copies). -/
theorem rebalance_added_rows_per_class (data : List (List ℚ)) (labels : List ℤ)
    (ratio : ℚ) (h1 : 1 < ratio) (h2 : labels ≠ []) (j : ℕ)
    (hj : j < (npUnique labels).length) :
    rebalance data labels ratio = .ok (rebalanced data labels ratio) ∧
    (rebalanced data labels ratio).2.count ((npUnique labels).getD j 0)
      = labels.count ((npUnique labels).getD j 0)
        + (⌊min ((maxCount labels : ℚ) - (labels.count ((npUnique labels).getD j 0) : ℚ))
            ((ratio - 1) * (labels.count ((npUnique labels).getD j 0) : ℚ))⌋).toNat := by
  have hjlen : j < (countsToAdd labels ratio).length := by
    unfold countsToAdd labelCounts; simpa using hj
  constructor
  · unfold rebalance
    rw [if_neg (not_le.2 h1), if_neg (by simp [List.isEmpty_iff, h2])]
  · rw [← countsToAdd_getD hj]
    by_cases hsum : (countsToAdd labels ratio).sum = 0
    · have hz : (countsToAdd labels ratio).getD j 0 = 0 := by
        rw [List.getD_eq_getElem _ _ hjlen]
        exact List.sum_eq_zero_iff.1 hsum _ (List.getElem_mem hjlen)
      unfold rebalanced
      rw [if_pos hsum, hz]
      simp
    · unfold rebalanced
      rw [if_neg hsum]
      show (labels ++ List.map (fun r => labels.getD r 0) _).count _ = _
      rw [List.count_append]
      congr 1
      rw [List.map_flatten, List.count_flatten, List.map_map, List.map_map]
      have hcount : ∀ k, k < (npUnique labels).length → k ≠ j →
          ((classAddIndices labels ratio k).map fun r => labels.getD r 0).count
            ((npUnique labels).getD j 0) = 0 := by
        intro k hk hkj
        refine List.count_eq_zero.2 fun hmem => ?_
        obtain ⟨r, hr, hval⟩ := List.mem_map.1 hmem
        have hrow := mem_of_mem_classAddIndices hr
        have : (npUnique labels).getD k 0 = (npUnique labels).getD j 0 := by
          rw [← (mem_rowIndicesFor.1 hrow).2, hval]
        rw [List.getD_eq_getElem _ _ hk, List.getD_eq_getElem _ _ hj] at this
        exact hkj (((npUnique_nodup labels).getElem_inj_iff).1 this)
      have hcj : ((classAddIndices labels ratio j).map fun r => labels.getD r 0).count
          ((npUnique labels).getD j 0) = (countsToAdd labels ratio).getD j 0 := by
        have hmem_u : (npUnique labels).getD j 0 ∈ labels := by
          rw [List.getD_eq_getElem _ _ hj]
          exact mem_npUnique.1 (List.getElem_mem hj)
        have hlen := @classAddIndices_length labels ratio j
          (rowIndicesFor_length_pos hmem_u)
        rw [← hlen, ← List.length_map (classAddIndices labels ratio j)
          (fun r => labels.getD r 0)]
        refine List.count_eq_length.2 fun b hb => ?_
        obtain ⟨r, hr, rfl⟩ := List.mem_map.1 hb
        exact ((mem_rowIndicesFor.1 (mem_of_mem_classAddIndices hr)).2).symm
      calc ((List.range (npUnique labels).length).map
              ((fun l => l.count ((npUnique labels).getD j 0)) ∘
                ((fun l => List.map (fun r => labels.getD r 0) l) ∘
                  classAddIndices labels ratio))).sum
          = ((List.range (npUnique labels).length).map fun k =>
              ((classAddIndices labels ratio k).map fun r =>
                labels.getD r 0).count ((npUnique labels).getD j 0)).sum := rfl
        _ = (countsToAdd labels ratio).getD j 0 := by
            rw [sum_range_map_single _ _ j hj hcount, hcj]

/-- Witness for C4's amended claim: labels `[0, 1, 1]` with ratio 3; the
singleton class 0 receives `int(min(2 - 1, 2 * 1)) = 1` extra row, ending
with 2 rows. -/
theorem rebalance_added_rows_per_class_witness :
    (1 : ℚ) < 3 ∧ ([0, 1, 1] : List ℤ) ≠ [] ∧ 0 < (npUnique [0, 1, 1]).length ∧
    (rebalance [[1], [2], [3]] [0, 1, 1] 3 =
        .ok (rebalanced [[1], [2], [3]] [0, 1, 1] 3) ∧
      (rebalanced [[1], [2], [3]] [0, 1, 1] 3).2.count
          ((npUnique [0, 1, 1]).getD 0 0)
        = ([0, 1, 1] : List ℤ).count ((npUnique [0, 1, 1]).getD 0 0)
          + (⌊min ((maxCount [0, 1, 1] : ℚ)
                - (([0, 1, 1] : List ℤ).count ((npUnique [0, 1, 1]).getD 0 0) : ℚ))
              (((3 : ℚ) - 1) *
                (([0, 1, 1] : List ℤ).count ((npUnique [0, 1, 1]).getD 0 0) : ℚ))⌋).toNat) :=
  ⟨by norm_num, by decide, by decide,
    rebalance_added_rows_per_class [[1], [2], [3]] [0, 1, 1] 3
      (by norm_num) (by decide) 0 (by decide)⟩

/-- C4 counterexample: on the repository's own test fixture (labels
`[1, 1, 0, 1]`, ratio 2.2) the minority class of count 1 gains exactly one
extra row (total `int(2.2) = 2`), not the two additional copies the claim
states. -/
theorem rebalance_fractional_ratio_counterexample :
    rebalance [[1, 2, 3], [4, 5, 6], [7, 8, 9], [10, 11, 12]] [1, 1, 0, 1]
        ((11 : ℚ) / 5) =
      .ok ([[1, 2, 3], [4, 5, 6], [7, 8, 9], [10, 11, 12], [7, 8, 9]],
        [1, 1, 0, 1, 0]) ∧
    ([1, 1, 0, 1, 0] : List ℤ).count 0 = ([1, 1, 0, 1] : List ℤ).count 0 + 1 := by
  constructor
  · have hcta : countsToAdd [1, 1, 0, 1] ((11 : ℚ) / 5) = [1, 0] := by
      show [(⌊min (((3:ℕ):ℚ) - ((1:ℕ):ℚ)) ((11/5 - 1) * ((1:ℕ):ℚ))⌋).toNat,
            (⌊min (((3:ℕ):ℚ) - ((3:ℕ):ℚ)) ((11/5 - 1) * ((3:ℕ):ℚ))⌋).toNat] = [1, 0]
      norm_num [min_def]
    unfold rebalance
    rw [if_neg (by norm_num), if_neg (by norm_num)]
    unfold rebalanced classAddIndices
    rw [hcta]
    norm_num
    decide
  · decide

/-- C5 (amended): rebalance with `ratio ≤ 1` always returns the input
unchanged; and for a nonempty labels array in which every class's computed
addition count is zero, the original data and labels are returned unchanged.
(The nonemptiness is forced by the counterexample: on an empty labels array
the `ratio > 1` path raises numpy's empty-reduction error.) -/
theorem rebalance_identity_cases (data : List (List ℚ)) (labels : List ℤ)
    (ratio : ℚ) :
    (ratio ≤ 1 → rebalance data labels ratio = .ok (data, labels)) ∧
    (labels ≠ [] → (∀ c ∈ countsToAdd labels ratio, c = 0) →
      rebalance data labels ratio = .ok (data, labels)) := by
  constructor
  · intro h
    unfold rebalance
    rw [if_pos h]
  · intro hne hzero
    unfold rebalance
    by_cases hr : ratio ≤ 1
    · rw [if_pos hr]
    · rw [if_neg hr, if_neg (by simp [List.isEmpty_iff, hne])]
      unfold rebalanced
      rw [if_pos (List.sum_eq_zero hzero)]

/-- Witness for C5's amended claim: ratio one half leaves the input alone;
ratio 3/2 on labels `[1, 1]` computes all-zero additions and also leaves the
input alone. -/
theorem rebalance_identity_cases_witness :
    ((1 : ℚ) / 2 ≤ 1 ∧
      rebalance [[1]] [1] ((1 : ℚ) / 2) = .ok ([[1]], [1])) ∧
    (([1, 1] : List ℤ) ≠ [] ∧ (∀ c ∈ countsToAdd [1, 1] ((3 : ℚ) / 2), c = 0) ∧
      rebalance [[1], [2]] [1, 1] ((3 : ℚ) / 2) = .ok ([[1], [2]], [1, 1])) :=
  ⟨⟨by norm_num, (rebalance_identity_cases [[1]] [1] ((1 : ℚ) / 2)).1 (by norm_num)⟩,
   ⟨by decide, by
      have hcta : countsToAdd [1, 1] ((3 : ℚ) / 2) = [0] := by
        show [(⌊min (((2:ℕ):ℚ) - ((2:ℕ):ℚ)) ((3/2 - 1) * ((2:ℕ):ℚ))⌋).toNat] = [0]
        norm_num
      rw [hcta]
      decide,
    (rebalance_identity_cases [[1], [2]] [1, 1] ((3 : ℚ) / 2)).2
      (by decide) (by
        have hcta : countsToAdd [1, 1] ((3 : ℚ) / 2) = [0] := by
          show [(⌊min (((2:ℕ):ℚ) - ((2:ℕ):ℚ)) ((3/2 - 1) * ((2:ℕ):ℚ))⌋).toNat] = [0]
          norm_num
        rw [hcta]
        decide)⟩⟩

/-- C5 counterexample: with an empty labels array and ratio 2, every
computed class-addition count is zero (there are no classes at all), yet
`rebalance` raises numpy's empty-reduction `ValueError` instead of returning
the input unchanged. -/
theorem rebalance_empty_labels_counterexample :
    countsToAdd ([] : List ℤ) 2 = [] ∧
    rebalance ([] : List (List ℚ)) ([] : List ℤ) 2 =
      .error "zero-size array to reduction operation maximum which has no identity" := by
  exact ⟨by rfl, by rfl⟩

/-- Witness for C10: two states with scores 0 and 1, argmax picks state 1,
mapped through possible_states [7, 9] to the label 9. -/
theorem run_viterbi_single_position_witness :
    npArgmax ((List.finRange 2).map fun j : Fin 2 => ((j.val : ℚ))) < 2 ∧
    ViterbiDecoder.run_viterbi
        (⟨some [7, 9], Semiring.MAX_MULTIPLY⟩ : ViterbiDecoder ℕ) 2 1
        (fun s _ => (s.val : ℚ)) (.stationary fun _ _ => 5) true =
      .ok (.withPath 1 (Sum.inr [9])) :=
  ⟨by decide,
    run_viterbi_single_position
      (⟨some [7, 9], Semiring.MAX_MULTIPLY⟩ : ViterbiDecoder ℕ) npArgmax rfl
      2 (fun s _ => (s.val : ℚ)) (.stationary fun _ _ => 5) (by decide)⟩

/-- C7: for every trellis, requesting the best path under a semiring without
`arg_sum` (such as PLUS_MULTIPLY) fails with the assertion error before any
trellis computation, while `return_best_path=False` always succeeds with a
score-only result. -/
theorem run_viterbi_best_path_requires_arg_sum {α : Type} [Inhabited α]
    (d : ViterbiDecoder α) (S P : ℕ) (node_scores : Fin S → ℕ → ℚ)
    (tw : TransitionWeights S) :
    (d.semiring.arg_sum = none →
      d.run_viterbi S P node_scores tw true =
        .error "Can only return best path for semirings with a defined arg_sum operation") ∧
    ∃ score, d.run_viterbi S P node_scores tw false = .ok (.scoreOnly score) := by
  constructor
  · intro h
    simp only [ViterbiDecoder.run_viterbi, h]
  · exact ⟨_, rfl⟩

/-- Witness for C7 at a concrete trellis and the PLUS_MULTIPLY semiring. -/
theorem run_viterbi_best_path_requires_arg_sum_witness :
    Semiring.PLUS_MULTIPLY.arg_sum = none ∧
    ViterbiDecoder.run_viterbi (⟨none, Semiring.PLUS_MULTIPLY⟩ : ViterbiDecoder ℕ)
      2 3 (fun _ _ => 1) (.stationary fun _ _ => 1) true =
        .error "Can only return best path for semirings with a defined arg_sum operation" :=
  ⟨rfl,
    (run_viterbi_best_path_requires_arg_sum
      (⟨none, Semiring.PLUS_MULTIPLY⟩ : ViterbiDecoder ℕ) 2 3
      (fun _ _ => 1) (.stationary fun _ _ => 1)).1 rfl⟩

/-- C8: `FeaturizedModel.test` on an empty feature-name dictionary fails with
the assertion error and never invokes the `_featurized_test` hook (the result
is the same error for every hook); on a non-empty dictionary it proceeds to
the hook. -/
theorem featurized_model_test_requires_dictionary {Part β : Type}
    (m : FeaturizedModel Part) (parts : List Part) :
    (m.feature_name_dictionary.ids_to_names = [] →
      ∀ featurized_test : List Part → β,
        m.test featurized_test parts =
          .error "Feature name dictionary must be populated either by training or by loading a model") ∧
    (m.feature_name_dictionary.ids_to_names ≠ [] →
      ∀ featurized_test : List Part → β,
        m.test featurized_test parts = .ok (featurized_test parts)) := by
  constructor <;> intro h featurized_test <;>
    simp [FeaturizedModel.test, List.isEmpty_iff, h]

/-- Witness for C8: an untrained model (empty dictionary) errors; a model
with a populated dictionary reaches its hook. -/
theorem featurized_model_test_requires_dictionary_witness :
    (FeaturizedModel.test (⟨[], ⟨[]⟩⟩ : FeaturizedModel ℕ)
      (fun parts => parts.length) [5] =
      .error "Feature name dictionary must be populated either by training or by loading a model") ∧
    FeaturizedModel.test (⟨[], ⟨["identity=1"]⟩⟩ : FeaturizedModel ℕ)
      (fun parts => parts.length) [5] = .ok 1 :=
  ⟨(featurized_model_test_requires_dictionary ⟨[], ⟨[]⟩⟩ [5]).1 rfl
      (fun parts => parts.length),
   (featurized_model_test_requires_dictionary ⟨[], ⟨["identity=1"]⟩⟩ [5]).2
      (by decide) (fun parts => parts.length)⟩

/-- C6: resolving the conjoined feature `identity:add1` against the two
categorical test extractors and training over parts `[1, 2]` registers
exactly the Cartesian-product subfeature names joined with `:`, together with
the component extractors' own names, and nothing else. -/
theorem conjoined_feature_registration :
    (resolveSelectedFeatures [identity_extractor, add1_extractor]
        ["identity", "add1", "identity:add1"]).map
      (fun extractors =>
        ((FeaturizedModel.mk extractors ⟨[]⟩).train (fun _ _ => ())
          [1, 2]).1.feature_name_dictionary.ids_to_names) =
    .ok ["identity=1", "identity=2", "add1=2", "add1=3",
         "identity=1:add1=2", "identity=1:add1=3",
         "identity=2:add1=2", "identity=2:add1=3"] := by
  rfl

end Causeway
